import Mathlib

/-!
Shallow embedding of the word-riddle puzzle engine from
`src/public/src/App.js` (a single-file React component), together with
theorems settling the specification claims.

Modelling conventions:
* JS strings become Lean `String`; the letter bank is a `List String`
  whose entries are single-character strings, with `""` as the
  "empty tile" marker (the JS code uses the empty string as falsy marker).
* `Math.random()` draws are parametrized by oracle functions
  `Nat → Nat`, reduced modulo the relevant bound exactly where the JS
  computes `Math.floor(Math.random() * bound)`; every concrete execution
  of the JS corresponds to some oracle and vice versa.
* React state (`items`, `index`, `picked`, `shuffled`, `status`,
  `revealed`) becomes an explicit `AppState` record; each event handler
  becomes a pure state transformer.
* JS `toLowerCase`/`toUpperCase` are modelled on the two alphabets the
  program manipulates (Latin and Cyrillic, including ё/Ё); all other
  characters are left unchanged, which is what `toLowerCase` does on
  the program's character set.
-/

namespace WordRiddle

/-- The letter test from the source regex `/[a-zA-Zа-яА-ЯёЁ]/` (App.js line 36). -/
def isLetterChar (c : Char) : Bool :=
  decide (('a' ≤ c ∧ c ≤ 'z') ∨ ('A' ≤ c ∧ c ≤ 'Z') ∨
    ('а' ≤ c ∧ c ≤ 'я') ∨ ('А' ≤ c ∧ c ≤ 'Я') ∨ c = 'ё' ∨ c = 'Ё')

/-- Whitespace, modelling the JS `\s` class on the characters this program meets
(space, tab, newline, carriage return, vertical tab, form feed, no-break space, BOM). -/
def isSpaceChar (c : Char) : Bool :=
  decide (c = ' ' ∨ c = '\t' ∨ c = '\n' ∨ c = '\r' ∨ c = Char.ofNat 11 ∨
    c = Char.ofNat 12 ∨ c = Char.ofNat 160 ∨ c = Char.ofNat 65279)

/-- The punctuation class stripped by `normalizeWord`
(source regex `[-_ apostrophe backtick .,!?«»()]`, App.js line 313);
code points 39 and 96 are the apostrophe and the backtick. -/
def isPunctChar (c : Char) : Bool :=
  decide (c = '-' ∨ c = '_' ∨ c = Char.ofNat 39 ∨ c = Char.ofNat 96 ∨
    c = '.' ∨ c = ',' ∨ c = '!' ∨ c = '?' ∨ c = '«' ∨ c = '»' ∨
    c = '(' ∨ c = ')')

/-- Alphabet-aware lower-casing of one character (JS `toLowerCase` restricted to
Latin A–Z and Cyrillic А–Я / Ё, the alphabets the program handles). -/
def jsLowerChar (c : Char) : Char :=
  if 'A' ≤ c ∧ c ≤ 'Z' then Char.ofNat (c.toNat + 32)
  else if 'А' ≤ c ∧ c ≤ 'Я' then Char.ofNat (c.toNat + 32)
  else if c = 'Ё' then 'ё'
  else c

/-- Alphabet-aware upper-casing of one character (JS `toUpperCase`). -/
def jsUpperChar (c : Char) : Char :=
  if 'a' ≤ c ∧ c ≤ 'z' then Char.ofNat (c.toNat - 32)
  else if 'а' ≤ c ∧ c ≤ 'я' then Char.ofNat (c.toNat - 32)
  else if c = 'ё' then 'Ё'
  else c

def jsToLower (s : String) : String := String.mk (s.data.map jsLowerChar)

def jsToUpper (s : String) : String := String.mk (s.data.map jsUpperChar)

/-- `normalizeWord` (App.js lines 312–314): strip whitespace, strip the fixed
punctuation set, then lower-case. -/
def normalizeWord (w : String) : String :=
  String.mk
    (((w.data.filter (fun c => !(isSpaceChar c))).filter
      (fun c => !(isPunctChar c))).map jsLowerChar)

/-- JS `String.prototype.trim`. -/
def jsTrim (s : String) : String :=
  String.mk (((s.data.dropWhile isSpaceChar).reverse.dropWhile isSpaceChar).reverse)

/-- Swap the entries at positions `i` and `j`; identity when either index is
out of bounds.  One step of the Fisher–Yates loop body (App.js line 332). -/
def swapL {α : Type} (l : List α) (i j : Nat) : List α :=
  match l.get? i, l.get? j with
  | some a, some b => (l.set i b).set j a
  | _, _ => l

/-- The Fisher–Yates loop of `shuffle` (App.js lines 328–335), counting the
loop variable down from `i+1` to `1`; `perm` is the random oracle, and
`perm (i+1) % (i+2)` models `Math.floor(Math.random() * (i + 1))` at loop
index `i+1`. -/
def fyAux {α : Type} (perm : Nat → Nat) : Nat → List α → List α
  | 0, l => l
  | Nat.succ i, l => fyAux perm i (swapL l (i + 1) (perm (i + 1) % (i + 2)))

/-- `shuffle` (App.js lines 328–335), parametrized by the random oracle. -/
def shuffle {α : Type} (perm : Nat → Nat) (l : List α) : List α :=
  fyAux perm (l.length - 1) l

/-- The filler alphabet `ALPHA` (App.js line 318): 33 lower-case Cyrillic
letters followed by 26 upper-case Latin letters. -/
def ALPHA : String := "абвгдеёжзийклмнопрстуфхцчшщъыьэюяABCDEFGHIJKLMNOPQRSTUVWXYZ"

/-- `makeLetterBank` (App.js lines 316–326): seed with the upper-cased
normalized target, compute `size = max(12, min(16, len+6))`, append random
fillers from `ALPHA` until `size` is reached, shuffle, and `slice(0, size)`.
`rnd` is the oracle for the filler draws, `perm` for the shuffle. -/
def makeLetterBank (rnd : Nat → Nat) (perm : Nat → Nat) (normTarget : String) :
    List String :=
  let base := (jsToUpper normTarget).data.map (fun c => String.mk [c])
  let size := max 12 (min 16 (base.length + 6))
  let filled := base ++ (List.range (size - base.length)).map
    (fun k => String.mk [ALPHA.data.getD (rnd k % ALPHA.data.length) 'A'])
  (shuffle perm filled).take size

inductive Status where
  | idle
  | correct
  | wrong
deriving DecidableEq, Repr

structure Item where
  word : String
  hint : Option String
deriving DecidableEq, Repr

/-- The React component state: the active word list, the current index, the
picked stack (`{ch, i}` pairs), the bank array, the verdict status and the
hint-reveal counter. -/
structure AppState where
  items : List Item
  index : Nat
  picked : List (String × Nat)
  shuffled : List String
  status : Status
  revealed : Nat
deriving DecidableEq, Repr

/-- One display slot (App.js lines 33–40). -/
structure Slot where
  char : Char
  isLetter : Bool
  revealed : Bool
deriving DecidableEq, Repr

/-- `displayWord` (App.js lines 33–40): one slot per target character; note
that the `revealed` flag compares the ABSOLUTE character position `i` with
the reveal counter. -/
def displayWord (target : String) (revealed : Nat) : List Slot :=
  target.data.enum.map (fun p => ⟨p.2, isLetterChar p.2, decide (p.1 < revealed)⟩)

/-- Number of letter slots, as the handlers compute it:
`displayWord.filter(isLetter).length` (App.js lines 54–56 and 93–95). -/
def letterSlotsLen (target : String) (revealed : Nat) : Nat :=
  ((displayWord target revealed).filter (fun x => x.isLetter)).length

/-- `target` (App.js line 30): `(current?.word || "").trim()`. -/
def targetOf (s : AppState) : String :=
  jsTrim (((s.items.get? s.index).map Item.word).getD "")

/-- `onTileClick` (App.js lines 51–63) seen as the user-level pick operation
on tile `i`: the bank button is `disabled={!ch}` (line 255), so a click on an
empty (or non-existent) position does nothing; otherwise the handler runs
with `ch = shuffled[i]`. -/
def pick (s : AppState) (i : Nat) : AppState :=
  match s.shuffled.get? i with
  | none => s
  | some ch =>
    if ch = "" then s
    else if s.status ≠ Status.idle then s
    else if letterSlotsLen (targetOf s) s.revealed ≤ s.picked.length + s.revealed then s
    else { s with picked := s.picked ++ [(ch, i)], shuffled := s.shuffled.set i "" }

/-- `removeLast` (App.js lines 65–70). -/
def removeLast (s : AppState) : AppState :=
  match s.picked.getLast? with
  | none => s
  | some last =>
    if s.status ≠ Status.idle then s
    else { s with picked := s.picked.dropLast, shuffled := s.shuffled.set last.2 last.1 }

/-- `hint` (App.js lines 91–98): no status guard; bounded by the letter-slot
count. -/
def hint (s : AppState) : AppState :=
  if letterSlotsLen (targetOf s) s.revealed ≤ s.revealed then s
  else { s with revealed := s.revealed + 1 }

/-- The inner walk of `rebuildWithPunctuation` (App.js lines 359–367):
non-letter slots and revealed slots copy the slot character; the remaining
letter slots consume the picked letters in order (`v || ""` when exhausted). -/
def rebuildAux : List String → List Slot → String
  | _, [] => ""
  | letters, x :: rest =>
    if x.isLetter = false then String.mk [x.char] ++ rebuildAux letters rest
    else if x.revealed then String.mk [x.char] ++ rebuildAux letters rest
    else letters.headD "" ++ rebuildAux (letters.drop 1) rest

/-- `rebuildWithPunctuation` (App.js lines 351–368); the source's
`revealedCount` parameter is unused by its body, which reads the `revealed`
flags baked into `displayWord`. -/
def rebuildWithPunctuation (picked : List (String × Nat)) (target : String)
    (revealed : Nat) : String :=
  rebuildAux (picked.map Prod.fst) (displayWord target revealed)

/-- `check` (App.js lines 72–85): only guard is `if (!current) return`;
compares the normalized rebuilt candidate with the normalized target and
sets the status accordingly. -/
def check (s : AppState) : AppState :=
  match s.items.get? s.index with
  | none => s
  | some _ =>
    if normalizeWord (rebuildWithPunctuation s.picked (targetOf s) s.revealed) =
        normalizeWord (targetOf s)
    then { s with status := Status.correct }
    else { s with status := Status.wrong }

/-- `shuffleBank` (App.js lines 100–102): reshuffles the whole bank array,
empty markers included. -/
def shuffleBank (perm : Nat → Nat) (s : AppState) : AppState :=
  { s with shuffled := shuffle perm s.shuffled }

/-- `reset` (App.js lines 104–109): clears the stack, the status and the
reveal counter, and reshuffles only the non-empty tiles (`filter(Boolean)`). -/
def reset (perm : Nat → Nat) (s : AppState) : AppState :=
  { s with picked := [], status := Status.idle, revealed := 0,
           shuffled := shuffle perm (s.shuffled.filter (fun c => !(decide (c = "")))) }

/-- `renderPickedChar` (App.js lines 337–349); JS array access at a negative
index yields `undefined`, modelled through `Int` subtraction. -/
def renderPickedChar (dw : List Slot) (picked : List (String × Nat))
    (revealedCount : Nat) (idx : Nat) : String :=
  let ls := dw.enum.filter (fun p => p.2.isLetter)
  let logicalIndex : Int :=
    match ls.findIdx? (fun p => decide (p.1 = idx)) with
    | some n => (n : Int)
    | none => -1
  let j : Int := logicalIndex - (revealedCount : Int)
  if j < 0 then "" else ((picked.get? j.toNat).map Prod.fst).getD ""

/-- Puzzle (re)initialization: the `useEffect` (App.js lines 42–49) together
with the `useState` initial values; with no current item the effect returns
early and the initial empty bank stays. -/
def initPuzzle (rnd perm1 perm2 : Nat → Nat) (items : List Item) (index : Nat) :
    AppState :=
  match items.get? index with
  | none => ⟨items, index, [], [], Status.idle, 0⟩
  | some _ =>
    let t := jsTrim (((items.get? index).map Item.word).getD "")
    ⟨items, index, [],
      shuffle perm2 (makeLetterBank rnd perm1 (normalizeWord t)), Status.idle, 0⟩

/-! ### Ingestion pipeline -/

/-- Split a character list at every character satisfying `p`, keeping empty
segments, as JS `String.prototype.split` with a single-character-class regex
does. -/
def splitChars (p : Char → Bool) : List Char → List (List Char)
  | [] => [[]]
  | c :: rest =>
    let r := splitChars p rest
    if p c then [] :: r
    else (c :: r.headD []) :: r.tail

/-- JS `split(/\r?\n/)`: split at every `\n` and drop one `\r` left hanging at
the end of a segment. -/
def splitOnNewlines (s : String) : List String :=
  (splitChars (fun c => decide (c = '\n')) s.data).map
    (fun l => String.mk (if l.getLast? = some '\r' then l.dropLast else l))

/-- `parseTXT` (App.js lines 370–380): non-empty trimmed lines, each split at
`|` into word and hint; an absent or empty (falsy) hint segment yields no
hint. -/
def parseTXT (txt : String) : List Item :=
  ((((splitOnNewlines txt).map jsTrim).filter (fun l => !(decide (l = "")))).map
    (fun line =>
      let parts := (splitChars (fun c => decide (c = '|')) line.data).map String.mk
      { word := jsTrim (parts.headD ""),
        hint := match parts.get? 1 with
                | none => none
                | some h => if h = "" then none else some (jsTrim h) })).filter
    (fun x => !(decide (x.word = "")))

/-- `parseCSV` (App.js lines 382–393): non-empty lines, each split at every
comma, semicolon or tab and trimmed; a first cell case-insensitively equal to
`word` makes the first row a header; rows with a non-empty first cell yield
`(word, hint = second cell if present)`. -/
def parseCSV (txt : String) : List Item :=
  let lines := (splitOnNewlines txt).filter (fun l => !(decide (l = "")))
  let rows := lines.map
    (fun l => ((splitChars (fun c => decide (c = ',' ∨ c = ';' ∨ c = '\t')) l.data).map
      String.mk).map jsTrim)
  let maybeHeader := decide (jsToLower (((rows.head?).bind List.head?).getD "") = "word")
  let start := if maybeHeader then 1 else 0
  (rows.drop start).filterMap (fun r =>
    match r.head? with
    | none => none
    | some w => if w = "" then none else some { word := w, hint := r.get? 1 })

/-- `dedupe`'s loop (App.js lines 395–406), with the `seen` set as a list of
keys. -/
def dedupeAux (seen : List String) : List Item → List Item
  | [] => []
  | it :: rest =>
    let key := normalizeWord it.word
    if key = "" then dedupeAux seen rest
    else if key ∈ seen then dedupeAux seen rest
    else { word := jsToUpper it.word, hint := it.hint } :: dedupeAux (key :: seen) rest

/-- `dedupe` (App.js lines 395–406). -/
def dedupe (arr : List Item) : List Item := dedupeAux [] arr

/-- Deduplication as the spec words it (refinement target for claim C8): an
item is dropped when its key is empty or when some *earlier* item of the
input has the same key; otherwise it is kept with its word upper-cased and
its hint verbatim; `pre` accumulates the already-walked prefix. -/
def dedupeSpecAux (pre : List Item) : List Item → List Item
  | [] => []
  | it :: rest =>
    if normalizeWord it.word = "" ∨
        ∃ j ∈ pre, normalizeWord j.word = normalizeWord it.word
    then dedupeSpecAux (pre ++ [it]) rest
    else { word := jsToUpper it.word, hint := it.hint } :: dedupeSpecAux (pre ++ [it]) rest

def dedupeSpec (arr : List Item) : List Item := dedupeSpecAux [] arr

/-- The built-in default word set (App.js lines 296–302). -/
def defaultSet : List Item :=
  [⟨"DRAGON", some "mythical creature"⟩,
   ⟨"MOUSE", some "small animal"⟩,
   ⟨"FOREST", some "many trees"⟩,
   ⟨"FRIEND", some "buddy"⟩,
   ⟨"SING", some "make music with your voice"⟩]

/-- `loadItems` (App.js lines 304–310), over the parsed content of the session
store: `none` models an absent key or a `JSON.parse` failure (the catch
branch), `some l` models stored JSON text parsing to the array `l`. -/
def loadItems (stored : Option (List Item)) : List Item := stored.getD defaultSet

/-- Outcome of the structural parse stage of `onUpload`: `parseFail` models a
thrown `JSON.parse` error, `ok l` the item list produced by the json / csv /
txt branch (for json, `ok []` also covers a parsed value that is not an
array, which leaves `parsed` empty). -/
inductive ParseOutcome where
  | parseFail
  | ok (items : List Item)
deriving DecidableEq

/-- The session-level state touched by ingestion: the active word list, the
current index and the session store (modelled as the parsed content filed
under the fixed `custom-words` key). -/
structure SessionState where
  items : List Item
  index : Nat
  store : Option (List Item)
deriving DecidableEq

/-- Branch selection of `onUpload` (App.js lines 120–131) by file extension. -/
def parseForExt (ext : String) (txt : String) (jsonRes : ParseOutcome) : ParseOutcome :=
  if ext = "json" then jsonRes
  else if ext = "csv" then ParseOutcome.ok (parseCSV txt)
  else ParseOutcome.ok (parseTXT txt)

/-- `onUpload` after the parse stage (App.js lines 132–141): an empty parse
result throws; a success replaces the list, persists it and resets the index;
any thrown error is caught and reported through `alert` (the returned
message). -/
def applyUpload (st : SessionState) (po : ParseOutcome) : SessionState × Option String :=
  match po with
  | ParseOutcome.parseFail => (st, some "parse error")
  | ParseOutcome.ok parsed =>
    if parsed.length = 0 then (st, some "no words in file")
    else
      let unique := (dedupe parsed).take 20
      ({ items := unique, index := 0, store := some unique }, none)

/-! ### Operation sequences and reachability -/

/-- The four in-puzzle player operations of claims C2/C10. -/
inductive Op where
  | pick (i : Nat)
  | removeLast
  | hint
  | check
deriving DecidableEq

def applyOp (s : AppState) : Op → AppState
  | Op.pick i => pick s i
  | Op.removeLast => removeLast s
  | Op.hint => hint s
  | Op.check => check s

def applyOps (s : AppState) (l : List Op) : AppState := l.foldl applyOp s

/-- Apply a sequence of picks. -/
def pickSeq : AppState → List Nat → AppState
  | s, [] => s
  | s, i :: is => pickSeq (pick s i) is

/-- Apply `removeLast` `n` times. -/
def removeN : Nat → AppState → AppState
  | 0, s => s
  | Nat.succ n, s => removeLast (removeN n s)

/-- A pick of tile `i` is valid: engine idle, the tile holds a letter, and a
letter slot is still free. -/
def validPick (s : AppState) (i : Nat) : Prop :=
  s.status = Status.idle ∧
    (∃ ch, s.shuffled.get? i = some ch ∧ ch ≠ "") ∧
    s.picked.length + s.revealed < letterSlotsLen (targetOf s) s.revealed

/-- Every pick of the sequence is valid in the state it is applied to. -/
def ValidPicks : AppState → List Nat → Prop
  | _, [] => True
  | s, i :: is => validPick s i ∧ ValidPicks (pick s i) is

/-- States reachable from `init` through pick, removeLast, hint and check. -/
inductive ReachPRHC (init : AppState) : AppState → Prop where
  | base : ReachPRHC init init
  | stepPick (s : AppState) (i : Nat) : ReachPRHC init s → ReachPRHC init (pick s i)
  | stepRemove (s : AppState) : ReachPRHC init s → ReachPRHC init (removeLast s)
  | stepHint (s : AppState) : ReachPRHC init s → ReachPRHC init (hint s)
  | stepCheck (s : AppState) : ReachPRHC init s → ReachPRHC init (check s)

/-- The multiset of letters sitting on non-empty bank tiles. -/
def bankLetters (l : List String) : Multiset String :=
  ↑(l.filter (fun c => !(decide (c = ""))))

/-- Conservation: non-empty bank tiles plus picked letters equal the original
bank content. -/
def Conserved (bank0 : List String) (s : AppState) : Prop :=
  bankLetters s.shuffled + ↑(s.picked.map Prod.fst) = bankLetters bank0

/-- Stack bookkeeping: picked bank indices are pairwise distinct and each
refers to a bank position currently marked empty (and each picked letter is
non-empty). -/
def StackOk (s : AppState) : Prop :=
  (s.picked.map Prod.snd).Nodup ∧
    ∀ p ∈ s.picked, s.shuffled.get? p.2 = some "" ∧ p.1 ≠ ""

/-! ### Concrete fixtures used by witnesses and counterexamples -/

/-- Identity random oracle: Fisher–Yates draws `j = i` at every step, so the
shuffle is the identity permutation. -/
def idNat : Nat → Nat := fun k => k

/-- Constant-zero random oracle (every filler draw picks `ALPHA[0]`). -/
def zeroNat : Nat → Nat := fun _ => 0

/-- Oracle making Fisher–Yates swap positions 0 and 1 and fix the rest. -/
def permSwap01 : Nat → Nat := fun i => if i = 1 then 0 else i

def dragonInit : AppState :=
  initPuzzle zeroNat idNat idNat [⟨"DRAGON", some "mythical creature"⟩] 0

def dragonAfterFive : AppState := pickSeq dragonInit [0, 1, 2, 3, 4]

def hyphenInit : AppState := initPuzzle zeroNat idNat idNat [⟨"A-B", none⟩] 0

def abInit : AppState := initPuzzle zeroNat idNat idNat [⟨"AB", none⟩] 0

def lockedState : AppState :=
  ⟨[⟨"AB", none⟩], 0, [], ["A", "B"], Status.correct, 0⟩

def emptyItemsInit : AppState := initPuzzle idNat idNat idNat [] 0

/-- A 17-letter target whose normalized form exceeds the maximum bank size. -/
def longTarget : String := "ABCDEFGHIJKLMNOPQ"

/-- 25 distinct valid text-format entries. -/
def txt25 : String :=
  "BA\nBB\nBC\nBD\nBE\nBF\nBG\nBH\nBI\nBJ\nBK\nBL\nBM\nBN\nBO\nBP\nBQ\nBR\nBS\nBT\nBU\nBV\nBW\nBX\nBY"

def items25 : List Item := parseTXT txt25




/-! ### List and multiset helper lemmas -/

theorem coe_set_add {α : Type} (l : List α) (i : Nat) (a b : α)
    (h : l.get? i = some b) :
    ((l.set i a : List α) : Multiset α) + {b} = (l : Multiset α) + {a} := by
  induction l generalizing i with
  | nil => simp at h
  | cons c t ih =>
    cases i with
    | zero =>
      simp only [List.get?] at h
      injection h with h
      subst h
      simp only [List.set, ← Multiset.cons_coe, ← Multiset.singleton_add]
      abel
    | succ i =>
      simp only [List.get?] at h
      simp only [List.set, ← Multiset.cons_coe, ← Multiset.singleton_add]
      rw [add_assoc, add_assoc, ih i h]

theorem set_of_get? {α : Type} (l : List α) (i : Nat) (a : α)
    (h : l.get? i = some a) : l.set i a = l := by
  induction l generalizing i with
  | nil => rfl
  | cons c t ih =>
    cases i with
    | zero =>
      simp only [List.get?] at h
      injection h with h
      subst h
      rfl
    | succ i =>
      simp only [List.get?] at h
      simp only [List.set]
      rw [ih i h]

theorem swapL_coe {α : Type} (l : List α) (i j : Nat) :
    ((swapL l i j : List α) : Multiset α) = (l : Multiset α) := by
  unfold swapL
  cases hi : l.get? i with
  | none => rfl
  | some a =>
    cases hj : l.get? j with
    | none => rfl
    | some b =>
      have hj2 : (l.set i b).get? j = some b := by
        by_cases hij : i = j
        · subst hij
          rw [List.get?_set_eq_of_lt]
          exact (List.get?_eq_some.mp hi).1
        · rw [List.get?_set_ne _ _ hij]
          exact hj
      have h1 := coe_set_add (l.set i b) j a b hj2
      have h2 := coe_set_add l i b a hi
      exact add_right_cancel (h1.trans h2)

theorem fyAux_coe {α : Type} (perm : Nat → Nat) (n : Nat) (l : List α) :
    ((fyAux perm n l : List α) : Multiset α) = (l : Multiset α) := by
  induction n generalizing l with
  | zero => rfl
  | succ i ih => rw [fyAux, ih, swapL_coe]

theorem shuffle_coe {α : Type} (perm : Nat → Nat) (l : List α) :
    ((shuffle perm l : List α) : Multiset α) = (l : Multiset α) :=
  fyAux_coe perm (l.length - 1) l

theorem shuffle_length {α : Type} (perm : Nat → Nat) (l : List α) :
    (shuffle perm l).length = l.length := by
  have h := congrArg Multiset.card (shuffle_coe perm l)
  simpa using h



theorem coe_filter_set_consume {α : Type} [DecidableEq α] (p : α → Bool)
    (l : List α) (i : Nat) (a b : α) (h : l.get? i = some b)
    (ha : p a = false) (hb : p b = true) :
    (((l.set i a).filter p : List α) : Multiset α) + {b} =
      ((l.filter p : List α) : Multiset α) := by
  induction l generalizing i with
  | nil => simp at h
  | cons c t ih =>
    cases i with
    | zero =>
      simp only [List.get?] at h
      injection h with h
      subst h
      simp only [List.set, List.filter_cons, ha, hb]
      simp only [Bool.false_eq_true, if_false, if_true, ← Multiset.cons_coe,
        ← Multiset.singleton_add]
      rw [add_comm]
    | succ i =>
      simp only [List.get?] at h
      simp only [List.set, List.filter_cons]
      by_cases hc : p c = true
      · simp only [hc, if_true, ← Multiset.cons_coe, ← Multiset.singleton_add]
        rw [add_assoc, ih i h]
      · simp only [hc, Bool.false_eq_true, if_false]
        exact ih i h

theorem coe_filter_set_restore {α : Type} [DecidableEq α] (p : α → Bool)
    (l : List α) (i : Nat) (a b : α) (h : l.get? i = some b)
    (ha : p a = true) (hb : p b = false) :
    (((l.set i a).filter p : List α) : Multiset α) =
      ((l.filter p : List α) : Multiset α) + {a} := by
  induction l generalizing i with
  | nil => simp at h
  | cons c t ih =>
    cases i with
    | zero =>
      simp only [List.get?] at h
      injection h with h
      subst h
      simp only [List.set, List.filter_cons, ha, hb]
      simp only [Bool.false_eq_true, if_false, if_true, ← Multiset.cons_coe,
        ← Multiset.singleton_add]
      rw [add_comm]
    | succ i =>
      simp only [List.get?] at h
      simp only [List.set, List.filter_cons]
      by_cases hc : p c = true
      · simp only [hc, if_true, ← Multiset.cons_coe, ← Multiset.singleton_add]
        rw [add_assoc, ← ih i h]
      · simp only [hc, Bool.false_eq_true, if_false]
        exact ih i h

theorem length_filter_enumFrom {α : Type} (q : α → Bool) (n : Nat) (l : List α) :
    ((List.enumFrom n l).filter (fun p => q p.2)).length = (l.filter q).length := by
  induction l generalizing n with
  | nil => rfl
  | cons a t ih =>
    simp only [List.enumFrom, List.filter_cons]
    by_cases h : q a = true
    · simp [h, ih]
    · simp [h, ih]

theorem letterSlotsLen_eq (t : String) (r : Nat) :
    letterSlotsLen t r = (t.data.filter isLetterChar).length := by
  unfold letterSlotsLen displayWord
  rw [List.filter_map]
  rw [List.length_map]
  have hc : ((fun x : Slot => x.isLetter) ∘
      fun p : Nat × Char => (⟨p.2, isLetterChar p.2, decide (p.1 < r)⟩ : Slot)) =
      fun p : Nat × Char => isLetterChar p.2 := rfl
  rw [hc]
  exact length_filter_enumFrom _ 0 _

theorem letterSlotsLen_const (t : String) (r : Nat) :
    letterSlotsLen t r = letterSlotsLen t 0 := by
  rw [letterSlotsLen_eq, letterSlotsLen_eq]



/-! ### Engine operation lemmas -/

theorem pick_eq_of_valid (s : AppState) (i : Nat) (ch : String)
    (hch : s.shuffled.get? i = some ch) (hne : ch ≠ "")
    (hst : s.status = Status.idle)
    (hroom : s.picked.length + s.revealed < letterSlotsLen (targetOf s) s.revealed) :
    pick s i = { s with picked := s.picked ++ [(ch, i)],
                        shuffled := s.shuffled.set i "" } := by
  unfold pick
  simp only [hch]
  rw [if_neg hne, if_neg (not_ne_iff.mpr hst), if_neg (Nat.not_le.mpr hroom)]

theorem pick_of_locked (s : AppState) (i : Nat) (h : s.status ≠ Status.idle) :
    pick s i = s := by
  unfold pick
  cases hg : s.shuffled.get? i with
  | none => rfl
  | some ch =>
    by_cases h1 : ch = ""
    · simp [h1]
    · simp [h1, h]

theorem removeLast_of_locked (s : AppState) (h : s.status ≠ Status.idle) :
    removeLast s = s := by
  unfold removeLast
  cases hg : s.picked.getLast? with
  | none => rfl
  | some last => simp [h]

theorem hint_status (s : AppState) : (hint s).status = s.status := by
  unfold hint
  split <;> rfl

theorem hint_picked (s : AppState) : (hint s).picked = s.picked := by
  unfold hint
  split <;> rfl

theorem hint_shuffled (s : AppState) : (hint s).shuffled = s.shuffled := by
  unfold hint
  split <;> rfl

theorem check_picked (s : AppState) : (check s).picked = s.picked := by
  unfold check
  split
  · rfl
  · split <;> rfl

theorem check_shuffled (s : AppState) : (check s).shuffled = s.shuffled := by
  unfold check
  split
  · rfl
  · split <;> rfl

theorem check_status_ne_idle (s : AppState) (h : s.status ≠ Status.idle) :
    (check s).status ≠ Status.idle := by
  unfold check
  split
  · exact h
  · split <;> simp

theorem applyOp_status_ne_idle (s : AppState) (op : Op)
    (h : s.status ≠ Status.idle) : (applyOp s op).status ≠ Status.idle := by
  cases op with
  | pick i =>
    show (pick s i).status ≠ Status.idle
    rw [pick_of_locked s i h]; exact h
  | removeLast =>
    show (removeLast s).status ≠ Status.idle
    rw [removeLast_of_locked s h]; exact h
  | hint =>
    show (hint s).status ≠ Status.idle
    rw [hint_status]; exact h
  | check => exact check_status_ne_idle s h

theorem applyOps_status_ne_idle (s : AppState) (ops : List Op)
    (h : s.status ≠ Status.idle) : (applyOps s ops).status ≠ Status.idle := by
  induction ops generalizing s with
  | nil => exact h
  | cons op ops ih => exact ih (applyOp s op) (applyOp_status_ne_idle s op h)

theorem removeLast_pick (s : AppState) (i : Nat) (h : validPick s i) :
    removeLast (pick s i) = s := by
  obtain ⟨hst, ⟨ch, hch, hne⟩, hroom⟩ := h
  rw [pick_eq_of_valid s i ch hch hne hst hroom]
  unfold removeLast
  simp only [List.getLast?_concat]
  rw [if_neg (not_ne_iff.mpr hst)]
  simp only [List.dropLast_concat, List.set_set, set_of_get? s.shuffled i ch hch]

theorem removeN_pickSeq (s : AppState) (is : List Nat) (h : ValidPicks s is) :
    removeN is.length (pickSeq s is) = s := by
  induction is generalizing s with
  | nil => rfl
  | cons i is ih =>
    obtain ⟨h1, h2⟩ := h
    show removeN (is.length + 1) (pickSeq (pick s i) is) = s
    rw [removeN, ih (pick s i) h2, removeLast_pick s i h1]



theorem pick_eq_or (s : AppState) (i : Nat) :
    pick s i = s ∨
    ∃ ch, s.shuffled.get? i = some ch ∧ ch ≠ "" ∧
      pick s i = { s with picked := s.picked ++ [(ch, i)],
                          shuffled := s.shuffled.set i "" } := by
  unfold pick
  cases hg : s.shuffled.get? i with
  | none => exact Or.inl rfl
  | some ch =>
    by_cases h1 : ch = ""
    · left; simp [h1]
    · by_cases h2 : s.status ≠ Status.idle
      · left; simp [h1, h2]
      · by_cases h3 : letterSlotsLen (targetOf s) s.revealed ≤ s.picked.length + s.revealed
        · left; simp [h1, h2, h3]
        · right
          exact ⟨ch, rfl, h1, by simp [h1, h2, h3]⟩

theorem removeLast_eq_or (s : AppState) :
    removeLast s = s ∨
    ∃ q last, s.picked = q ++ [last] ∧
      removeLast s = { s with picked := q, shuffled := s.shuffled.set last.2 last.1 } := by
  unfold removeLast
  cases hg : s.picked.getLast? with
  | none => exact Or.inl rfl
  | some last =>
    by_cases h2 : s.status ≠ Status.idle
    · left; simp [h2]
    · right
      obtain ⟨q, hq⟩ := List.getLast?_eq_some_iff.mp hg
      refine ⟨q, last, hq, ?_⟩
      show (if s.status ≠ Status.idle then s
        else { s with picked := s.picked.dropLast,
                      shuffled := s.shuffled.set last.2 last.1 }) = _
      rw [if_neg h2, hq, List.dropLast_concat]

theorem reach_invariant (init s : AppState) (h0 : init.picked = [])
    (hr : ReachPRHC init s) : Conserved init.shuffled s ∧ StackOk s := by
  induction hr with
  | base =>
    refine ⟨?_, ?_, ?_⟩
    · unfold Conserved
      rw [h0]
      simp
    · rw [h0]
      exact List.nodup_nil
    · rw [h0]
      intro p hp
      simp at hp
  | stepPick t i a ih =>
    obtain ⟨ihc, ihn, ihm⟩ := ih
    rcases pick_eq_or t i with heq | ⟨ch, hg, hne, heq⟩
    · rw [heq]; exact ⟨ihc, ihn, ihm⟩
    · rw [heq]
      have hilen : i < t.shuffled.length := (List.get?_eq_some.mp hg).1
      have hnoti : ∀ p ∈ t.picked, p.2 ≠ i := by
        intro p hp hpi
        have h1 := (ihm p hp).1
        rw [hpi, hg] at h1
        injection h1 with h1
        exact hne h1
      have hcons := coe_filter_set_consume (fun c => !(decide (c = "")))
        t.shuffled i "" ch hg (by decide) (by simp [hne])
      refine ⟨?_, ?_, ?_⟩
      · show bankLetters (t.shuffled.set i "") +
          ↑((t.picked ++ [(ch, i)]).map Prod.fst) = bankLetters init.shuffled
        have hcons2 : bankLetters (t.shuffled.set i "") + {ch} =
            bankLetters t.shuffled := hcons
        rw [List.map_append]
        show bankLetters (t.shuffled.set i "") +
          ↑(t.picked.map Prod.fst ++ [ch]) = bankLetters init.shuffled
        rw [← Multiset.coe_add, Multiset.coe_singleton,
          add_comm (↑(t.picked.map Prod.fst) : Multiset String) ({ch} : Multiset String),
          ← add_assoc, hcons2]
        exact ihc
      · show ((t.picked ++ [(ch, i)]).map Prod.snd).Nodup
        rw [List.map_append]
        refine List.Nodup.append ihn (by simp) ?_
        intro a ha hb
        simp at hb
        obtain ⟨p, hp, hpi⟩ := List.mem_map.mp ha
        exact hnoti p hp (by rw [hpi, hb])
      · intro p hp
        rcases List.mem_append.mp hp with hp | hp
        · refine ⟨?_, (ihm p hp).2⟩
          show (t.shuffled.set i "").get? p.2 = some ""
          rw [List.get?_set_ne _ _ (fun h => hnoti p hp h.symm)]
          exact (ihm p hp).1
        · simp at hp
          rw [hp]
          refine ⟨?_, hne⟩
          show (t.shuffled.set i "").get? i = some ""
          exact List.get?_set_eq_of_lt _ hilen
  | stepRemove t a ih =>
    obtain ⟨ihc, ihn, ihm⟩ := ih
    rcases removeLast_eq_or t with heq | ⟨q, last, hq, heq⟩
    · rw [heq]; exact ⟨ihc, ihn, ihm⟩
    · rw [heq]
      have hlastmem : last ∈ t.picked := by rw [hq]; simp
      have hlast := ihm last hlastmem
      have hsnd : t.picked.map Prod.snd = q.map Prod.snd ++ [last.2] := by
        rw [hq, List.map_append]; rfl
      have hnodup := hsnd ▸ ihn
      have hqn : (q.map Prod.snd).Nodup := (List.nodup_append.mp hnodup).1
      have hdisj : ∀ p ∈ q, p.2 ≠ last.2 := by
        intro p hp hpe
        have hd := (List.nodup_append.mp hnodup).2.2
        exact hd (a := p.2) (List.mem_map.mpr ⟨p, hp, rfl⟩) (by simp [hpe])
      have hrest := coe_filter_set_restore (fun c => !(decide (c = "")))
        t.shuffled last.2 last.1 "" hlast.1 (by simp [hlast.2]) (by decide)
      refine ⟨?_, hqn, ?_⟩
      · show bankLetters (t.shuffled.set last.2 last.1) + ↑(q.map Prod.fst) =
          bankLetters init.shuffled
        have hfst : (↑(t.picked.map Prod.fst) : Multiset String) =
            ↑(q.map Prod.fst) + {last.1} := by
          rw [hq, List.map_append, ← Multiset.coe_add]
          rfl
        have hrest2 : bankLetters (t.shuffled.set last.2 last.1) =
            bankLetters t.shuffled + {last.1} := hrest
        rw [hrest2, add_assoc,
          add_comm ({last.1} : Multiset String) (↑(q.map Prod.fst) : Multiset String),
          ← hfst]
        exact ihc
      · intro p hp
        have hp2 : p ∈ t.picked := by rw [hq]; exact List.mem_append_left _ hp
        refine ⟨?_, (ihm p hp2).2⟩
        show (t.shuffled.set last.2 last.1).get? p.2 = some ""
        rw [List.get?_set_ne _ _ (fun h => hdisj p hp h.symm)]
        exact (ihm p hp2).1
  | stepHint t a ih =>
    obtain ⟨ihc, ihn, ihm⟩ := ih
    refine ⟨?_, ?_, ?_⟩
    · show Conserved init.shuffled (hint t)
      unfold Conserved
      rw [hint_shuffled, hint_picked]
      exact ihc
    · rw [hint_picked]; exact ihn
    · intro p hp
      rw [hint_picked] at hp
      rw [hint_shuffled]
      exact ihm p hp
  | stepCheck t a ih =>
    obtain ⟨ihc, ihn, ihm⟩ := ih
    refine ⟨?_, ?_, ?_⟩
    · show Conserved init.shuffled (check t)
      unfold Conserved
      rw [check_shuffled, check_picked]
      exact ihc
    · rw [check_picked]; exact ihn
    · intro p hp
      rw [check_picked] at hp
      rw [check_shuffled]
      exact ihm p hp



/-! ### Deduplication lemmas -/

theorem dedupeAux_eq_spec (l : List Item) (seen : List String) (pre : List Item)
    (hseen : ∀ k, k ∈ seen ↔ (k ≠ "" ∧ ∃ j ∈ pre, normalizeWord j.word = k)) :
    dedupeAux seen l = dedupeSpecAux pre l := by
  induction l generalizing seen pre with
  | nil => rfl
  | cons it rest ih =>
    simp only [dedupeAux, dedupeSpecAux]
    by_cases hk : normalizeWord it.word = ""
    · rw [if_pos hk, if_pos (Or.inl hk)]
      apply ih
      intro k
      constructor
      · intro hks
        obtain ⟨hne, j, hj, hjk⟩ := (hseen k).mp hks
        exact ⟨hne, j, List.mem_append_left _ hj, hjk⟩
      · rintro ⟨hne, j, hj, hjk⟩
        rcases List.mem_append.mp hj with hj | hj
        · exact (hseen k).mpr ⟨hne, j, hj, hjk⟩
        · simp at hj
          rw [hj] at hjk
          exact absurd (hjk.symm.trans hk) hne
    · rw [if_neg hk]
      by_cases hmem : normalizeWord it.word ∈ seen
      · rw [if_pos hmem]
        obtain ⟨_, j, hj, hjk⟩ := (hseen _).mp hmem
        rw [if_pos (Or.inr ⟨j, hj, hjk⟩)]
        apply ih
        intro k
        constructor
        · intro hks
          obtain ⟨hne, j2, hj2, hjk2⟩ := (hseen k).mp hks
          exact ⟨hne, j2, List.mem_append_left _ hj2, hjk2⟩
        · rintro ⟨hne, j2, hj2, hjk2⟩
          rcases List.mem_append.mp hj2 with hj2 | hj2
          · exact (hseen k).mpr ⟨hne, j2, hj2, hjk2⟩
          · simp at hj2
            rw [hj2] at hjk2
            rw [← hjk2]
            exact hmem
      · rw [if_neg hmem]
        have hnopre : ¬ ∃ j ∈ pre, normalizeWord j.word = normalizeWord it.word := by
          rintro ⟨j, hj, hjk⟩
          exact hmem ((hseen _).mpr ⟨hk, j, hj, hjk⟩)
        rw [if_neg (not_or.mpr ⟨hk, hnopre⟩)]
        congr 1
        apply ih
        intro k
        constructor
        · intro hks
          rcases List.mem_cons.mp hks with hks | hks
          · exact ⟨fun he => hk (hks.symm.trans he), it,
              List.mem_append_right _ (by simp), hks.symm⟩
          · obtain ⟨hne, j, hj, hjk⟩ := (hseen k).mp hks
            exact ⟨hne, j, List.mem_append_left _ hj, hjk⟩
        · rintro ⟨hne, j, hj, hjk⟩
          rcases List.mem_append.mp hj with hj | hj
          · exact List.mem_cons_of_mem _ ((hseen k).mpr ⟨hne, j, hj, hjk⟩)
          · simp at hj
            rw [hj] at hjk
            rw [← hjk]
            exact List.mem_cons_self _ _

theorem dedupe_eq_spec (arr : List Item) : dedupe arr = dedupeSpec arr := by
  apply dedupeAux_eq_spec
  intro k
  simp

theorem dedupeAux_of_distinct (l : List Item) (seen : List String)
    (hne : ∀ it ∈ l, normalizeWord it.word ≠ "")
    (hpw : l.Pairwise (fun a b => normalizeWord a.word ≠ normalizeWord b.word))
    (hs : ∀ it ∈ l, normalizeWord it.word ∉ seen) :
    dedupeAux seen l = l.map (fun it => ⟨jsToUpper it.word, it.hint⟩) := by
  induction l generalizing seen with
  | nil => rfl
  | cons it rest ih =>
    have hk := hne it (List.mem_cons_self _ _)
    have hm := hs it (List.mem_cons_self _ _)
    simp only [dedupeAux, List.map_cons]
    rw [if_neg hk, if_neg hm]
    congr 1
    apply ih
    · intro j hj
      exact hne j (List.mem_cons_of_mem _ hj)
    · exact (List.pairwise_cons.mp hpw).2
    · intro j hj hmem
      rcases List.mem_cons.mp hmem with hmem | hmem
      · exact (List.pairwise_cons.mp hpw).1 j hj hmem.symm
      · exact hs j (List.mem_cons_of_mem _ hj) hmem

/-! ### Bank generator lemmas -/

theorem jsToUpper_data_length (s : String) :
    (jsToUpper s).data.length = s.length := by
  show (s.data.map jsUpperChar).length = s.data.length
  exact List.length_map _ _

theorem makeLetterBank_length (rnd perm : Nat → Nat) (nt : String) :
    (makeLetterBank rnd perm nt).length = max 12 (min 16 (nt.length + 6)) := by
  unfold makeLetterBank
  simp only [List.length_take, shuffle_length, List.length_append, List.length_map,
    List.length_range]
  rw [jsToUpper_data_length]
  omega

theorem coe_take_of_length_eq {α : Type} (l : List α) (n : Nat) (h : l.length = n) :
    ((l.take n : List α) : Multiset α) = (l : Multiset α) := by
  subst h
  rw [List.take_length]

theorem makeLetterBank_contains (rnd perm : Nat → Nat) (nt : String)
    (h : nt.length ≤ 16) :
    (↑((jsToUpper nt).data.map (fun c => String.mk [c])) : Multiset String) ≤
      ↑(makeLetterBank rnd perm nt) := by
  have hblen : ((jsToUpper nt).data.map (fun c => String.mk [c])).length = nt.length := by
    rw [List.length_map, jsToUpper_data_length]
  show (↑((jsToUpper nt).data.map (fun c => String.mk [c])) : Multiset String) ≤
    ↑((shuffle perm ((jsToUpper nt).data.map (fun c => String.mk [c]) ++
        (List.range ((max 12 (min 16 (((jsToUpper nt).data.map (fun c => String.mk [c])).length + 6))) -
          ((jsToUpper nt).data.map (fun c => String.mk [c])).length)).map
          (fun k => String.mk [ALPHA.data.getD (rnd k % ALPHA.data.length) 'A']))).take
      (max 12 (min 16 (((jsToUpper nt).data.map (fun c => String.mk [c])).length + 6))))
  have hfl : (((jsToUpper nt).data.map (fun c => String.mk [c])) ++
      (List.range ((max 12 (min 16 (((jsToUpper nt).data.map (fun c => String.mk [c])).length + 6))) -
        ((jsToUpper nt).data.map (fun c => String.mk [c])).length)).map
        (fun k => String.mk [ALPHA.data.getD (rnd k % ALPHA.data.length) 'A'])).length =
      max 12 (min 16 (((jsToUpper nt).data.map (fun c => String.mk [c])).length + 6)) := by
    simp only [List.length_append, List.length_map, List.length_range]
    rw [jsToUpper_data_length]
    omega
  rw [← shuffle_length perm] at hfl
  rw [coe_take_of_length_eq _ _ hfl, shuffle_coe, ← Multiset.coe_add]
  exact Multiset.le_add_right _ _

theorem makeLetterBank_ne_empty (rnd perm : Nat → Nat) (nt : String) :
    ∀ x ∈ makeLetterBank rnd perm nt, x ≠ "" := by
  intro x hx
  unfold makeLetterBank at hx
  have hx2 := List.take_subset _ _ hx
  have hx3 := (Multiset.coe_eq_coe.mp (shuffle_coe perm _)).mem_iff.mp hx2
  rcases List.mem_append.mp hx3 with h | h
  · obtain ⟨c, _, rfl⟩ := List.mem_map.mp h
    intro he
    have hd : ([c] : List Char) = ("" : String).data := congrArg String.data he
    simp at hd
  · obtain ⟨k, _, rfl⟩ := List.mem_map.mp h
    intro he
    have hd := congrArg String.data he
    simp at hd

theorem bankLetters_of_ne_empty (l : List String) (h : ∀ x ∈ l, x ≠ "") :
    bankLetters l = ↑l := by
  unfold bankLetters
  congr 1
  rw [List.filter_eq_self]
  intro a ha
  simp [h a ha]



theorem applyOps_fixed (s : AppState) (h : ∀ op, applyOp s op = s) :
    ∀ l : List Op, applyOps s l = s := by
  intro l
  induction l with
  | nil => rfl
  | cons op l ih =>
    show applyOps (applyOp s op) l = s
    rw [h op]
    exact ih

/-- Claim C1, corrected: for every random oracle and every target word the
generated bank `makeLetterBank (normalize target)` has length exactly
`clamp(length + 6, 12, 16)`, hence in `[12, 16]`; and whenever the normalized
target has at most 16 characters, the bank contains the upper-cased
characters of the normalized target as a sub-multiset.  (The containment
clause of the original claim fails for longer targets, because
`slice(0, size)` after the shuffle drops seed letters: see the
counterexample.) -/
theorem c1_bank_size_and_seed (rnd perm : Nat → Nat) (t : String) :
    (makeLetterBank rnd perm (normalizeWord t)).length =
      max 12 (min 16 ((normalizeWord t).length + 6)) ∧
    12 ≤ (makeLetterBank rnd perm (normalizeWord t)).length ∧
    (makeLetterBank rnd perm (normalizeWord t)).length ≤ 16 ∧
    ((normalizeWord t).length ≤ 16 →
      (↑((jsToUpper (normalizeWord t)).data.map (fun c => String.mk [c])) : Multiset String) ≤
        ↑(makeLetterBank rnd perm (normalizeWord t))) := by
  refine ⟨makeLetterBank_length rnd perm _, ?_, ?_,
    fun h => makeLetterBank_contains rnd perm _ h⟩
  · rw [makeLetterBank_length]; omega
  · rw [makeLetterBank_length]; omega

theorem c1_witness :
    (↑((jsToUpper (normalizeWord "DRAGON")).data.map (fun c => String.mk [c])) : Multiset String) ≤
      ↑(makeLetterBank zeroNat idNat (normalizeWord "DRAGON")) :=
  (c1_bank_size_and_seed zeroNat idNat "DRAGON").2.2.2 (by decide)

theorem c1_counterexample :
    (makeLetterBank idNat idNat (normalizeWord longTarget)).length = 16 ∧
    ¬ ((↑((jsToUpper (normalizeWord longTarget)).data.map (fun c => String.mk [c])) : Multiset String) ≤
      ↑(makeLetterBank idNat idNat (normalizeWord longTarget))) := by
  constructor
  · decide
  · decide

/-- Claim C2, corrected: in every state whose status is Correct or Wrong,
pick and removeLast are exact no-ops, hint leaves the status unchanged, and
no sequence of pick / removeLast / hint / check calls ever brings the status
back to Idle; reset does return the status to Idle.  (The original claim
that the verdict can never flip is false: `check` carries no Idle guard, so
`hint; check` can turn Wrong into Correct — see the counterexample.) -/
theorem c2_lock_no_reidle : ∀ (s : AppState) (ops : List Op), s.status ≠ Status.idle →
    (applyOps s ops).status ≠ Status.idle ∧
    (∀ i, pick s i = s) ∧ removeLast s = s ∧ (hint s).status = s.status ∧
    (∀ perm, (reset perm s).status = Status.idle) := by
  intro s ops h
  exact ⟨applyOps_status_ne_idle s ops h, fun i => pick_of_locked s i h,
    removeLast_of_locked s h, hint_status s, fun _ => rfl⟩

theorem c2_witness :
    (applyOps lockedState [Op.hint, Op.check]).status ≠ Status.idle ∧
    (∀ i, pick lockedState i = lockedState) ∧ removeLast lockedState = lockedState ∧
    (hint lockedState).status = lockedState.status ∧
    (∀ perm, (reset perm lockedState).status = Status.idle) :=
  c2_lock_no_reidle lockedState [Op.hint, Op.check] (by decide)

theorem c2_counterexample :
    (check abInit).status = Status.wrong ∧
    (check (hint (hint (check abInit)))).status = Status.correct := by
  constructor
  · decide
  · decide

/-- Claim C3, code bug, evaluated at the failing input: for the target
`"A-B"` with `RevealedCount = 2` (reachable by two hint calls, since the
letter-slot count is 2), the code marks the ABSOLUTE positions 0 and 1 as
revealed — position 1 being the hyphen, a non-letter — and leaves the second
letter slot (position 2) unrevealed: the displayed slot is blank and the
candidate that check() rebuilds is `"A-"`, so check yields Wrong even though
every letter slot has been revealed by hints.  The claim (revealed
positions are the first k letter slots, skipping non-letters) matches the
source comment `reveal next correct letter (skips spaces/punct.)` and
`renderPickedChar`'s own indexing, but `displayWord` computes
`revealed: i < revealed` over absolute character positions. -/
theorem c3_absolute_reveal_bug :
    letterSlotsLen "A-B" 0 = 2 ∧
    (hint (hint hyphenInit)).revealed = 2 ∧
    isLetterChar '-' = false ∧
    (displayWord "A-B" 2).map Slot.revealed = [true, true, false] ∧
    rebuildWithPunctuation [] "A-B" 2 = "A-" ∧
    (check (hint (hint hyphenInit))).status = Status.wrong ∧
    renderPickedChar (displayWord "A-B" 2) [] 2 2 = "" := by
  refine ⟨by decide, by decide, by decide, by decide, by decide, by decide, by decide⟩

/-- Claim C4, corrected: restricted to pick, removeLast, hint and check
steps from a puzzle (re)initialization, the multiset of non-empty bank tiles
plus the multiset of picked letters equals the original bank multiset, the
picked bank indices are pairwise distinct, and each refers to a bank
position currently marked empty.  Generated banks contain no empty tile, so
`bankLetters` of the original bank is the whole original bank.  (The
original claim also allowed bank reshuffle and reset steps, under which the
invariant is false — see the counterexample.) -/
theorem c4_conservation :
    (∀ (rnd perm : Nat → Nat) (nt : String), ∀ x ∈ makeLetterBank rnd perm nt, x ≠ "") ∧
    (∀ l : List String, (∀ x ∈ l, x ≠ "") → bankLetters l = ↑l) ∧
    (∀ (init s : AppState), init.picked = [] → ReachPRHC init s →
      Conserved init.shuffled s ∧ (s.picked.map Prod.snd).Nodup ∧
      ∀ p ∈ s.picked, s.shuffled.get? p.2 = some "") := by
  refine ⟨makeLetterBank_ne_empty, bankLetters_of_ne_empty, ?_⟩
  intro init s h0 hr
  obtain ⟨hc, hn, hm⟩ := reach_invariant init s h0 hr
  exact ⟨hc, hn, fun p hp => (hm p hp).1⟩

theorem c4_witness :
    Conserved abInit.shuffled (pick abInit 0) ∧
    ((pick abInit 0).picked.map Prod.snd).Nodup ∧
    ∀ p ∈ (pick abInit 0).picked, (pick abInit 0).shuffled.get? p.2 = some "" :=
  c4_conservation.2.2 abInit (pick abInit 0) rfl
    (ReachPRHC.stepPick abInit 0 ReachPRHC.base)

theorem c4_counterexample :
    (shuffleBank permSwap01 (pick abInit 0)).picked = [("A", 0)] ∧
    (shuffleBank permSwap01 (pick abInit 0)).shuffled.get? 0 = some "B" ∧
    ¬ Conserved abInit.shuffled (removeLast (shuffleBank permSwap01 (pick abInit 0))) := by
  refine ⟨by decide, by decide, ?_⟩
  unfold Conserved bankLetters
  decide

/-- Claim C5, confirmed: ingestion is atomic replace-or-reject — whenever
the structural parse fails or yields zero usable items, the error is
reported to the caller and the previously active word list, the current
index, and the session store are left unchanged; in particular a CSV file
holding only the header row `word,hint` parses to zero items and is
rejected with the prior session state intact. -/
theorem c5_upload_atomic :
    (∀ (st : SessionState) (po : ParseOutcome),
      po = ParseOutcome.parseFail ∨ po = ParseOutcome.ok [] →
      (applyUpload st po).1 = st ∧ ((applyUpload st po).2).isSome = true) ∧
    (∀ (st : SessionState) (j : ParseOutcome),
      (applyUpload st (parseForExt "csv" "word,hint" j)).1 = st ∧
      ((applyUpload st (parseForExt "csv" "word,hint" j)).2).isSome = true) := by
  constructor
  · rintro st po (rfl | rfl)
    · exact ⟨rfl, rfl⟩
    · exact ⟨rfl, rfl⟩
  · intro st j
    have hcsv : parseForExt "csv" "word,hint" j = ParseOutcome.ok [] := by
      have h1 : parseCSV "word,hint" = [] := by decide
      unfold parseForExt
      rw [if_neg (by decide), if_pos rfl, h1]
    rw [hcsv]
    exact ⟨rfl, rfl⟩

theorem c5_witness :
    (applyUpload ⟨defaultSet, 0, none⟩ ParseOutcome.parseFail).1 = ⟨defaultSet, 0, none⟩ ∧
    ((applyUpload ⟨defaultSet, 0, none⟩ ParseOutcome.parseFail).2).isSome = true :=
  c5_upload_atomic.1 ⟨defaultSet, 0, none⟩ ParseOutcome.parseFail (Or.inl rfl)

/-- Claim C6, corrected: for the target `"DRAGON"` with no hints, after
picking tiles spelling D, R, A, G, O, check() yields Wrong; but the Wrong
state locks the engine, so the subsequent pick of the tile holding N is
ignored and a second check() yields Wrong again (not Correct as the
original claim said — the spec scenario contradicts the spec's own locking
rule, and the code implements the lock). -/
theorem c6_locked_after_wrong :
    dragonAfterFive.picked.map Prod.fst = ["D", "R", "A", "G", "O"] ∧
    (check dragonAfterFive).status = Status.wrong ∧
    pick (check dragonAfterFive) 5 = check dragonAfterFive ∧
    (check (pick (check dragonAfterFive) 5)).status = Status.wrong := by
  refine ⟨by decide, by decide, by decide, by decide⟩

theorem c6_counterexample :
    dragonAfterFive.picked.map Prod.fst = ["D", "R", "A", "G", "O"] ∧
    (check dragonAfterFive).status = Status.wrong ∧
    (check dragonAfterFive).shuffled.get? 5 = some "N" ∧
    (check (pick (check dragonAfterFive) 5)).status ≠ Status.correct := by
  refine ⟨by decide, by decide, by decide, by decide⟩

/-- Claim C7, confirmed: pick(tileIndex) is a no-op — total (so it never
throws) and mutates no state — whenever the referenced bank position is
already empty, or the number of already-filled letter slots
(`picked.length + revealed`) equals the total letter-slot count, or the
engine is not in the Idle state. -/
theorem c7_pick_noop : ∀ (s : AppState) (i : Nat),
    (s.shuffled.get? i = some "" ∨
     s.picked.length + s.revealed = letterSlotsLen (targetOf s) s.revealed ∨
     s.status ≠ Status.idle) →
    pick s i = s := by
  intro s i h
  unfold pick
  cases hg : s.shuffled.get? i with
  | none => rfl
  | some ch =>
    by_cases h1 : ch = ""
    · simp [h1]
    · rcases h with h | h | h
      · rw [hg] at h
        injection h with h
        exact absurd h h1
      · by_cases h2 : s.status ≠ Status.idle
        · simp [h1, h2]
        · simp [h1, h2, Nat.le_of_eq h.symm]
      · simp [h1, h]

theorem c7_witness : pick lockedState 0 = lockedState ∧ lockedState.status ≠ Status.idle :=
  ⟨c7_pick_noop lockedState 0 (Or.inr (Or.inr (by decide))), by decide⟩

/-- Claim C9, corrected: from any Idle state, a sequence of n valid picks
followed by exactly n removeLast calls restores the whole state — the bank
returns to its pre-pick contents and the PickedStack returns to its
pre-pick contents.  (The original claim said the PickedStack always ends
empty, which fails when it was non-empty before the picks — see the
counterexample.) -/
theorem c9_pick_remove_restores : ∀ (s : AppState) (is : List Nat),
    ValidPicks s is → removeN is.length (pickSeq s is) = s := by
  intro s is h
  exact removeN_pickSeq s is h

theorem c9_witness : removeN 2 (pickSeq abInit [0, 1]) = abInit :=
  c9_pick_remove_restores abInit [0, 1]
    ⟨⟨by decide, ⟨"A", by decide, by decide⟩, by decide⟩,
     ⟨by decide, ⟨"B", by decide, by decide⟩, by decide⟩, trivial⟩

theorem c9_counterexample :
    (pick abInit 0).status = Status.idle ∧
    ValidPicks (pick abInit 0) [1] ∧
    (removeN 1 (pickSeq (pick abInit 0) [1])).picked = [("A", 0)] ∧
    (removeN 1 (pickSeq (pick abInit 0) [1])).picked ≠ [] := by
  refine ⟨by decide, ⟨⟨by decide, ⟨"B", by decide, by decide⟩, by decide⟩, trivial⟩,
    by decide, by decide⟩

/-- Claim C10, confirmed: when the active word list is empty (as when the
session store holds an empty JSON array at startup), the engine is inert:
the target is the empty string, the letter-slot count is 0, pick /
removeLast / hint / check each leave the state unchanged (and are total, so
nothing throws), the status stays Idle, and any sequence of these
operations is a no-op. -/
theorem c10_empty_list_inert :
    loadItems (some []) = [] ∧
    emptyItemsInit.status = Status.idle ∧
    targetOf emptyItemsInit = "" ∧
    letterSlotsLen (targetOf emptyItemsInit) 0 = 0 ∧
    (∀ i, pick emptyItemsInit i = emptyItemsInit) ∧
    removeLast emptyItemsInit = emptyItemsInit ∧
    hint emptyItemsInit = emptyItemsInit ∧
    check emptyItemsInit = emptyItemsInit ∧
    (∀ ops : List Op, applyOps emptyItemsInit ops = emptyItemsInit) := by
  refine ⟨rfl, rfl, rfl, rfl, fun i => rfl, rfl, rfl, rfl, ?_⟩
  apply applyOps_fixed
  intro op
  cases op with
  | pick i => rfl
  | removeLast => rfl
  | hint => rfl
  | check => rfl

/-- Claim C8, confirmed: dedupe keeps the first occurrence of each
non-empty `normalize(word)` key with the word upper-cased and the hint
preserved verbatim, and drops items whose key is empty or already seen
(first conjunct: the source loop equals the spec-worded `dedupeSpec`);
capping the deduplicated sequence at 20 entries preserves the original
relative order, and 25 distinct valid entries yield exactly 20 items. -/
theorem c8_dedupe_cap :
    (∀ arr : List Item, dedupe arr = dedupeSpec arr) ∧
    (∀ arr : List Item, arr.length = 25 →
      (∀ it ∈ arr, normalizeWord it.word ≠ "") →
      arr.Pairwise (fun a b => normalizeWord a.word ≠ normalizeWord b.word) →
      ((dedupe arr).take 20).length = 20 ∧
      (dedupe arr).take 20 = (arr.take 20).map (fun it => ⟨jsToUpper it.word, it.hint⟩)) := by
  refine ⟨dedupe_eq_spec, ?_⟩
  intro arr hlen hne hpw
  have hd : dedupe arr = arr.map (fun it => ⟨jsToUpper it.word, it.hint⟩) :=
    dedupeAux_of_distinct arr [] hne hpw (by simp)
  constructor
  · rw [hd, List.length_take, List.length_map, hlen]
    decide
  · rw [hd, List.map_take]

theorem c8_witness :
    ((dedupe items25).take 20).length = 20 ∧
    (dedupe items25).take 20 = (items25.take 20).map (fun it => ⟨jsToUpper it.word, it.hint⟩) :=
  c8_dedupe_cap.2 items25 (by decide) (by decide) (by decide)

end WordRiddle
